import Mathlib

/-!
Verification of the ip2region rust binding searcher
(src/binding/rust/ip2region2/src/searcher.rs).

The xdb byte buffer (a rust `Vec<u8>` / `&[u8]`) is modelled as a length
plus an index function.  All `usize` arithmetic of the source is modelled
on `Nat` with an explicit `% 2^64` wherever rust release-mode wrapping can
occur (`right = mid - 1`, `left + right`, `start_ptr + mid * 14`,
`offset + 14`).  Fallible operations (slicing, which panics in rust when
out of bounds) return `Option`; a rust panic is modelled by the dedicated
result `SearchResult.fault`.  The binary-search loop is defined with an
explicit fuel of `2^64`; a genuine proof below shows the fuel is never
exhausted for any buffer whose size respects rust's `Vec` allocation cap.
-/

/-! Constants, verbatim from the source. -/

def HEADER_INFO_LENGTH : Nat := 256

def VECTOR_INDEX_COLS : Nat := 256

def VECTOR_INDEX_SIZE : Nat := 8

def SEGMENT_INDEX_SIZE : Nat := 14

def VECTOR_INDEX_LENGTH : Nat := 512 * 1024

/-- Modulus of rust `usize` on a 64-bit target. -/
def USIZE : Nat := 2 ^ 64

/-- Modulus of rust `u32`; `as u32` casts are `% U32`. -/
def U32 : Nat := 2 ^ 32

/-- A `Vec<u8>` / byte slice: a length and the byte at each index.
Only indices below `size` are ever read (all reads are bounds checked),
and a well-formed buffer has bytes below 256 (`WfBuf`). -/
structure ByteBuf where
  size : Nat
  byteAt : Nat → Nat

/-- The bytes of a real `Vec<u8>` are `u8` values. -/
def WfBuf (b : ByteBuf) : Prop := ∀ i, i < b.size → b.byteAt i < 256

/-- Rust range slicing `&b[lo..hi]`: panics (here `none`) unless
`lo ≤ hi ∧ hi ≤ b.size`. -/
def sliceBuf (b : ByteBuf) (lo hi : Nat) : Option ByteBuf :=
  if lo ≤ hi ∧ hi ≤ b.size then some ⟨hi - lo, fun i => b.byteAt (lo + i)⟩ else none

/-- Wrapping `usize` subtraction `a - b` (rust release semantics). -/
def usizeSub (a b : Nat) : Nat := (a + (USIZE - b % USIZE)) % USIZE

/-- The accumulation loop of `get_block_by_size`:
`result |= usize::from(*value) << (index * 8)` over the whole slice, on
`usize`.  A rust shift whose amount reaches the word width is an overflow:
release builds mask the shift amount to `% 64` (modelled here, together
with the `% 2^64` value wrap of the shift); debug builds panic instead.
At the call sites (`length ∈ {2,4}`) the masking and the wrap are
identities, so there the fold is the plain little-endian value. -/
def leFold (b : ByteBuf) : Nat :=
  (List.range b.size).foldl
    (fun result index => result ||| ((b.byteAt index <<< (index * 8 % 64)) % USIZE)) 0

/-- `get_block_by_size(bytes, offset, length)`: slices
`bytes[offset..offset + length]` (panic → `none`) and folds the bytes into a
little-endian unsigned integer in `usize` arithmetic. -/
def get_block_by_size (bytes : ByteBuf) (offset length : Nat) : Option Nat :=
  (sliceBuf bytes offset (offset + length)).map leFold

/-- Bytes of a buffer as a list (`.to_vec()` on a slice). -/
def bufToList (b : ByteBuf) : List Nat := (List.range b.size).map b.byteAt

/-- Continuation byte of UTF-8: `0x80 ≤ b ≤ 0xBF`. -/
def isUtf8Cont (b : Nat) : Bool := 0x80 ≤ b && b ≤ 0xBF

/-- Validity of a byte sequence per `String::from_utf8` (strict UTF-8:
no overlong forms, no surrogates, at most U+10FFFF). -/
def isValidUtf8 (l : List Nat) : Bool :=
  match l with
  | [] => true
  | b :: rest =>
    if b ≤ 0x7F then isValidUtf8 rest
    else if b < 0xC2 then false
    else if b ≤ 0xDF then
      match rest with
      | c1 :: r => isUtf8Cont c1 && isValidUtf8 r
      | [] => false
    else if b = 0xE0 then
      match rest with
      | c1 :: c2 :: r => (0xA0 ≤ c1 && c1 ≤ 0xBF) && isUtf8Cont c2 && isValidUtf8 r
      | _ => false
    else if b = 0xED then
      match rest with
      | c1 :: c2 :: r => (0x80 ≤ c1 && c1 ≤ 0x9F) && isUtf8Cont c2 && isValidUtf8 r
      | _ => false
    else if b ≤ 0xEF then
      match rest with
      | c1 :: c2 :: r => isUtf8Cont c1 && isUtf8Cont c2 && isValidUtf8 r
      | _ => false
    else if b = 0xF0 then
      match rest with
      | c1 :: c2 :: c3 :: r => (0x90 ≤ c1 && c1 ≤ 0xBF) && isUtf8Cont c2 && isUtf8Cont c3 && isValidUtf8 r
      | _ => false
    else if b ≤ 0xF3 then
      match rest with
      | c1 :: c2 :: c3 :: r => isUtf8Cont c1 && isUtf8Cont c2 && isUtf8Cont c3 && isValidUtf8 r
      | _ => false
    else if b = 0xF4 then
      match rest with
      | c1 :: c2 :: c3 :: r => (0x80 ≤ c1 && c1 ≤ 0x8F) && isUtf8Cont c2 && isUtf8Cont c3 && isValidUtf8 r
      | _ => false
    else false

/-- Outcome of `search_by_ip` (after ip normalisation):
`ok` = `Ok(payload)`, `notMatched` = `Err("not matched")`,
`utf8Error` = the `String::from_utf8` error propagated by `?`,
`fault` = a rust panic (out-of-bounds slice),
`fuelOut` = artificial fuel exhaustion of the embedding (proved unreachable
for buffers within rust's allocation cap). -/
inductive SearchResult where
  | ok (payload : List Nat)
  | notMatched
  | utf8Error
  | fault
  | fuelOut
  deriving DecidableEq

/-- The `while left <= right` loop of `search_by_ip`, one constructor of
fuel per iteration.  Mirrors the source exactly: midpoint by shift-right,
record slice of `SEGMENT_INDEX_SIZE` bytes, lazy field decoding, inclusive
containment test, `right = mid - 1` with `usize` wrap-around. -/
def search_loop (full : ByteBuf) (ip : Nat) (start_ptr : Nat) : Nat → Nat → Nat → SearchResult
  | 0, _, _ => .fuelOut
  | fuel + 1, left, right =>
    if left ≤ right then
      let mid := ((left + right) % USIZE) >>> 1
      let offset := (start_ptr + mid * SEGMENT_INDEX_SIZE) % USIZE
      match sliceBuf full offset ((offset + SEGMENT_INDEX_SIZE) % USIZE) with
      | none => .fault
      | some buffer_ip_value =>
        match get_block_by_size buffer_ip_value 0 4 with
        | none => .fault
        | some start_ip =>
          if ip < start_ip % U32 then
            search_loop full ip start_ptr fuel left (usizeSub mid 1)
          else
            match get_block_by_size buffer_ip_value 4 4 with
            | none => .fault
            | some end_ip =>
              if ip > end_ip % U32 then
                search_loop full ip start_ptr fuel ((mid + 1) % USIZE) right
              else
                match get_block_by_size buffer_ip_value 8 2,
                      get_block_by_size buffer_ip_value 10 4 with
                | some data_length, some data_offset =>
                  match sliceBuf full data_offset ((data_offset + data_length) % USIZE) with
                  | none => .fault
                  | some payload =>
                    if isValidUtf8 (bufToList payload) then .ok (bufToList payload)
                    else .utf8Error
                | _, _ => .fault
    else .notMatched

/-- `get_vector_index_cache`: the 512 KiB slice following the header. -/
def get_vector_index_cache (full_cache : ByteBuf) : Option ByteBuf :=
  sliceBuf full_cache HEADER_INFO_LENGTH (HEADER_INFO_LENGTH + VECTOR_INDEX_LENGTH)

/-- `get_start_end_ptr(ip)`: decode the two 4-byte pointers of the vector
index cell selected by the top two octets of `ip`. -/
def get_start_end_ptr (full_cache : ByteBuf) (ip : Nat) : Option (Nat × Nat) :=
  let il0 := (ip >>> 24) &&& 0xFF
  let il1 := (ip >>> 16) &&& 0xFF
  let idx := VECTOR_INDEX_SIZE * (il0 * VECTOR_INDEX_COLS + il1)
  match get_vector_index_cache full_cache with
  | none => none
  | some vector_cache =>
    match get_block_by_size vector_cache idx 4,
          get_block_by_size vector_cache (idx + 4) 4 with
    | some start_ptr, some end_ptr => some (start_ptr, end_ptr)
    | _, _ => none

/-- Fuel for the loop embedding.  One `usize` cannot count past `2^64`
iterations; the termination theorem below shows far fewer ever occur. -/
def FUEL : Nat := USIZE

/-- `search_by_ip` from the normalised `u32` ip on: vector-index lookup,
then the binary-search loop with `left = 0` and
`right = (end_ptr - start_ptr) / SEGMENT_INDEX_SIZE`. -/
def search_by_ip (full_cache : ByteBuf) (ip : Nat) : SearchResult :=
  match get_start_end_ptr full_cache ip with
  | none => .fault
  | some (start_ptr, end_ptr) =>
    search_loop full_cache ip start_ptr FUEL 0 (usizeSub end_ptr start_ptr / SEGMENT_INDEX_SIZE)

/-! Cache manager (`CachePolicy`, `load_file`, `get_full_cache`).
The process-wide `OnceCell` is modelled by explicit state passing:
`Option ByteBuf` is the cell's content, and each call reports how many
times `load_file` ran (1 disk read of the whole file, or 0). -/

/-- `CachePolicy { Never=1, VecIndex, Full }`. -/
inductive CachePolicy where
  | Never
  | VecIndex
  | Full
  deriving DecidableEq

/-- `load_file()`: reads the configured xdb file fully into memory.  The
on-disk contents are the immutable `disk` argument. -/
def load_file (disk : ByteBuf) : ByteBuf := disk

/-- `get_full_cache()`: under `Full`, `CACHE.get_or_init(|| load_file())`;
under any other policy a fresh `load_file()` on every call.  Returns the
buffer handed to the caller, the new cell state, and the number of disk
loads performed by this call. -/
def get_full_cache (cache_policy : CachePolicy) (disk : ByteBuf) (cell : Option ByteBuf) :
    ByteBuf × Option ByteBuf × Nat :=
  match cache_policy with
  | .Full =>
    match cell with
    | some c => (c, some c, 0)
    | none => (load_file disk, some (load_file disk), 1)
  | _ => (load_file disk, cell, 1)

/-- A sequence of `n` calls to `get_full_cache` starting from the empty
cell: final cell state, total disk loads, and the buffers returned. -/
def cache_calls (cache_policy : CachePolicy) (disk : ByteBuf) : Nat → Option ByteBuf × Nat × List ByteBuf
  | 0 => (none, 0, [])
  | n + 1 =>
    let p := cache_calls cache_policy disk n
    let r := get_full_cache cache_policy disk p.1
    (r.2.1, p.2.1 + r.2.2, p.2.2 ++ [r.1])

/-! Initialisation (`default_detect_xdb_file`, `searcher_init`).
Filesystem probing is abstracted by a `pathExists` predicate. -/

/-- `"../".repeat(n)` (rust `str::repeat`). -/
def str_repeat (s : String) : Nat → String
  | 0 => ""
  | n + 1 => s ++ str_repeat s n

/-- The `for recurse in 1..4` probing loop of `default_detect_xdb_file`. -/
def detect_go (pathExists : String → Bool) : List Nat → Except String String
  | [] => .error ("default filepath not find the xdb file, so you must set xdb_filepath")
  | recurse :: rest =>
    let filepath := str_repeat ("../") recurse ++ ("data/ip2region.xdb")
    if pathExists filepath then .ok filepath else detect_go pathExists rest

/-- `default_detect_xdb_file()`: probe `../data/ip2region.xdb`,
`../../data/ip2region.xdb`, `../../../data/ip2region.xdb`. -/
def default_detect_xdb_file (pathExists : String → Bool) : Except String String :=
  detect_go pathExists [1, 2, 3]

/-- Outcome of `searcher_init`: either both env vars are set (path and
policy configured), or the process crashed on `.unwrap()`. -/
inductive InitOutcome where
  | configured (xdb_filepath : String) (cache_policy : CachePolicy)
  | crashed (msg : String)
  deriving DecidableEq

/-- `searcher_init(xdb_filepath, cache_policy)`:
`xdb_filepath.unwrap_or_else(|| default_detect_xdb_file().unwrap())`, then
store the policy (default `Full`).  The inner `.unwrap()` panics — modelled
by `InitOutcome.crashed` — when detection fails. -/
def searcher_init (xdb_filepath : Option String) (cache_policy : Option CachePolicy)
    (pathExists : String → Bool) : InitOutcome :=
  match xdb_filepath with
  | some fp => .configured fp (cache_policy.getD CachePolicy.Full)
  | none =>
    match default_detect_xdb_file pathExists with
    | .ok fp => .configured fp (cache_policy.getD CachePolicy.Full)
    | .error msg => .crashed msg

/-- A `pathExists` oracle under which no candidate path exists. -/
def noPath : String → Bool := fun _ => false

/-! Spec-side accessors for the decoded fields of the segment record at
index `k` of the range based at `base` (used to state well-formedness
hypotheses; total via `getD`, exact whenever the record is in bounds). -/

/-- Decoded `start_ip` of record `k`. -/
def vStart (full : ByteBuf) (base k : Nat) : Nat :=
  (get_block_by_size full (base + k * SEGMENT_INDEX_SIZE) 4).getD 0

/-- Decoded `end_ip` of record `k`. -/
def vEnd (full : ByteBuf) (base k : Nat) : Nat :=
  (get_block_by_size full (base + k * SEGMENT_INDEX_SIZE + 4) 4).getD 0

/-- Decoded `data_length` of record `k`. -/
def vDataLen (full : ByteBuf) (base k : Nat) : Nat :=
  (get_block_by_size full (base + k * SEGMENT_INDEX_SIZE + 8) 2).getD 0

/-- Decoded `data_ptr` of record `k`. -/
def vDataPtr (full : ByteBuf) (base k : Nat) : Nat :=
  (get_block_by_size full (base + k * SEGMENT_INDEX_SIZE + 10) 4).getD 0

/-- The payload bytes at `(ptr, len)` in the data region. -/
def payloadBytes (full : ByteBuf) (ptr len : Nat) : List Nat :=
  (List.range len).map (fun i => full.byteAt (ptr + i))

/-! The binary search as the specification of claim C2 words it
("classic closed-interval binary search", `right = count - 1`), with
mathematical-integer indices so that `count - 1` is `-1` when the cell is
empty and the loop is then never entered. -/

/-- Loop of the C2-specified algorithm over `Int` indices. -/
def search_spec_c2_loop (full : ByteBuf) (ip : Nat) (start_ptr : Nat) :
    Nat → Int → Int → SearchResult
  | 0, _, _ => .fuelOut
  | fuel + 1, left, right =>
    if left ≤ right then
      let mid := (left + right) / 2
      let offset := start_ptr + mid.toNat * SEGMENT_INDEX_SIZE
      match sliceBuf full offset (offset + SEGMENT_INDEX_SIZE) with
      | none => .fault
      | some buffer_ip_value =>
        match get_block_by_size buffer_ip_value 0 4 with
        | none => .fault
        | some start_ip =>
          if ip < start_ip % U32 then
            search_spec_c2_loop full ip start_ptr fuel left (mid - 1)
          else
            match get_block_by_size buffer_ip_value 4 4 with
            | none => .fault
            | some end_ip =>
              if ip > end_ip % U32 then
                search_spec_c2_loop full ip start_ptr fuel (mid + 1) right
              else
                match get_block_by_size buffer_ip_value 8 2,
                      get_block_by_size buffer_ip_value 10 4 with
                | some data_length, some data_offset =>
                  match sliceBuf full data_offset (data_offset + data_length) with
                  | none => .fault
                  | some payload =>
                    if isValidUtf8 (bufToList payload) then .ok (bufToList payload)
                    else .utf8Error
                | _, _ => .fault
    else .notMatched

/-- The search algorithm exactly as claim C2 states it:
`count = (end_ptr - start_ptr) / 14`, `left = 0`, `right = count - 1`. -/
def search_spec_c2 (full : ByteBuf) (ip : Nat) : SearchResult :=
  match get_start_end_ptr full ip with
  | none => .fault
  | some (start_ptr, end_ptr) =>
    let count : Int := (usizeSub end_ptr start_ptr / SEGMENT_INDEX_SIZE : Nat)
    search_spec_c2_loop full ip start_ptr FUEL 0 (count - 1)

/-! The amended description of the search (claim C2 corrected):
`right` starts at `count = (end_ptr - start_ptr) / 14` itself, records are
decoded field-by-field straight from the full buffer, and `right = mid - 1`
wraps in `usize` arithmetic. -/

/-- Loop of the amended C2 description: same search, record fields decoded
directly from the full buffer at `offset + 0/4/8/10` after the single
14-byte bounds check. -/
def search_amended_c2_loop (full : ByteBuf) (ip : Nat) (start_ptr : Nat) :
    Nat → Nat → Nat → SearchResult
  | 0, _, _ => .fuelOut
  | fuel + 1, left, right =>
    if left ≤ right then
      let mid := ((left + right) % USIZE) >>> 1
      let offset := (start_ptr + mid * SEGMENT_INDEX_SIZE) % USIZE
      let hi := (offset + SEGMENT_INDEX_SIZE) % USIZE
      if offset ≤ hi ∧ hi ≤ full.size then
        match get_block_by_size full offset 4 with
        | none => .fault
        | some start_ip =>
          if ip < start_ip % U32 then
            search_amended_c2_loop full ip start_ptr fuel left (usizeSub mid 1)
          else
            match get_block_by_size full (offset + 4) 4 with
            | none => .fault
            | some end_ip =>
              if ip > end_ip % U32 then
                search_amended_c2_loop full ip start_ptr fuel ((mid + 1) % USIZE) right
              else
                match get_block_by_size full (offset + 8) 2,
                      get_block_by_size full (offset + 10) 4 with
                | some data_length, some data_offset =>
                  match sliceBuf full data_offset ((data_offset + data_length) % USIZE) with
                  | none => .fault
                  | some payload =>
                    if isValidUtf8 (bufToList payload) then .ok (bufToList payload)
                    else .utf8Error
                | _, _ => .fault
      else .fault
    else .notMatched

/-- The amended C2 claim as an algorithm: closed-interval binary search
over record indices `0 .. count` inclusive, `right` initialised to
`count = (end_ptr - start_ptr) / 14`. -/
def search_amended_c2 (full : ByteBuf) (ip : Nat) : SearchResult :=
  match get_start_end_ptr full ip with
  | none => .fault
  | some (start_ptr, end_ptr) =>
    let count := usizeSub end_ptr start_ptr / SEGMENT_INDEX_SIZE
    search_amended_c2_loop full ip start_ptr FUEL 0 count

/-! Instrumented copy of the loop recording every probed record offset
(used for claim C9: which record the search examines). -/

/-- `search_loop` with a trace of the record offsets it slices. -/
def search_loop_trace (full : ByteBuf) (ip : Nat) (start_ptr : Nat) :
    Nat → Nat → Nat → List Nat → SearchResult × List Nat
  | 0, _, _, acc => (.fuelOut, acc)
  | fuel + 1, left, right, acc =>
    if left ≤ right then
      let mid := ((left + right) % USIZE) >>> 1
      let offset := (start_ptr + mid * SEGMENT_INDEX_SIZE) % USIZE
      let acc2 := acc ++ [offset]
      match sliceBuf full offset ((offset + SEGMENT_INDEX_SIZE) % USIZE) with
      | none => (.fault, acc2)
      | some buffer_ip_value =>
        match get_block_by_size buffer_ip_value 0 4 with
        | none => (.fault, acc2)
        | some start_ip =>
          if ip < start_ip % U32 then
            search_loop_trace full ip start_ptr fuel left (usizeSub mid 1) acc2
          else
            match get_block_by_size buffer_ip_value 4 4 with
            | none => (.fault, acc2)
            | some end_ip =>
              if ip > end_ip % U32 then
                search_loop_trace full ip start_ptr fuel ((mid + 1) % USIZE) right acc2
              else
                match get_block_by_size buffer_ip_value 8 2,
                      get_block_by_size buffer_ip_value 10 4 with
                | some data_length, some data_offset =>
                  match sliceBuf full data_offset ((data_offset + data_length) % USIZE) with
                  | none => (.fault, acc2)
                  | some payload =>
                    if isValidUtf8 (bufToList payload) then (.ok (bufToList payload), acc2)
                    else (.utf8Error, acc2)
                | _, _ => (.fault, acc2)
    else (.notMatched, acc)

/-- `search_by_ip` with the probe trace. -/
def search_by_ip_trace (full_cache : ByteBuf) (ip : Nat) : SearchResult × List Nat :=
  match get_start_end_ptr full_cache ip with
  | none => (.fault, [])
  | some (start_ptr, end_ptr) =>
    search_loop_trace full_cache ip start_ptr FUEL 0
      (usizeSub end_ptr start_ptr / SEGMENT_INDEX_SIZE) []

/-! Concrete buffers for witnesses and counterexamples.  All are
`256 + 512*1024 + extra` bytes so the vector-index slice is in bounds; the
vector cell for ip `0x00......` holds `start_ptr = end_ptr = 0`, so the
"record" sits in the first 14 bytes of the header. -/

/-- Buffer whose cell `(0,0)` has `start_ptr = end_ptr = 0` and whose
record 0 is `[0, 0xFFFFFFFF] → (len 1, ptr 264)` with byte 65 at 264. -/
def c1buf : ByteBuf :=
  ⟨524544, fun i =>
    if 4 ≤ i ∧ i ≤ 7 then 255
    else if i = 8 then 1
    else if i = 10 then 8
    else if i = 11 then 1
    else if i = 264 then 65
    else 0⟩

/-- Buffer with a coverage gap: cell `(0,0)` points at a single record
whose `start_ip` is `0xFFFFFFFF`, so ip 0 is below every record. -/
def gapBuf : ByteBuf :=
  ⟨524544, fun i => if i ≤ 3 then 255 else 0⟩

/-- Buffer whose matching record carries a corrupted `data_ptr` of 600000,
past the end of the 524544-byte file. -/
def oobBuf : ByteBuf :=
  ⟨524544, fun i =>
    if 4 ≤ i ∧ i ≤ 7 then 255
    else if i = 8 then 1
    else if i = 10 then 192
    else if i = 11 then 39
    else if i = 12 then 9
    else 0⟩

/-- A tiny stand-in for the on-disk xdb contents in cache theorems. -/
def disk0 : ByteBuf := ⟨4, fun _ => 7⟩

/-! Numeric and buffer helper lemmas. -/

theorem USIZE_eq : USIZE = 18446744073709551616 := by norm_num [USIZE]

theorem U32_eq : U32 = 4294967296 := by norm_num [U32]

theorem USIZE_pos : 0 < USIZE := by rw [USIZE_eq]; omega

theorem sliceBuf_some {b : ByteBuf} {lo hi : Nat} (h1 : lo ≤ hi) (h2 : hi ≤ b.size) :
    sliceBuf b lo hi = some ⟨hi - lo, fun i => b.byteAt (lo + i)⟩ := by
  unfold sliceBuf; rw [if_pos ⟨h1, h2⟩]

theorem sliceBuf_none {b : ByteBuf} {lo hi : Nat} (h : ¬(lo ≤ hi ∧ hi ≤ b.size)) :
    sliceBuf b lo hi = none := by
  unfold sliceBuf; rw [if_neg h]

theorem sliceBuf_inv {b : ByteBuf} {lo hi : Nat} {r : ByteBuf}
    (h : sliceBuf b lo hi = some r) :
    lo ≤ hi ∧ hi ≤ b.size ∧ r = ⟨hi - lo, fun i => b.byteAt (lo + i)⟩ := by
  unfold sliceBuf at h
  split at h
  · next hc => exact ⟨hc.1, hc.2, (Option.some_inj.mp h).symm⟩
  · exact absurd h (by simp)

theorem leFold_congr {n₁ n₂ : Nat} {f g : Nat → Nat} (hn : n₁ = n₂)
    (hfg : ∀ i, i < n₂ → f i = g i) :
    leFold ⟨n₁, f⟩ = leFold ⟨n₂, g⟩ := by
  subst hn
  unfold leFold
  have : ∀ (l : List Nat) (acc : Nat), (∀ i ∈ l, f i = g i) →
      l.foldl (fun result index => result ||| ((f index <<< (index * 8 % 64)) % USIZE)) acc =
      l.foldl (fun result index => result ||| ((g index <<< (index * 8 % 64)) % USIZE)) acc := by
    intro l
    induction l with
    | nil => intro acc _; rfl
    | cons x xs ih =>
      intro acc hx
      simp only [List.foldl_cons]
      rw [hx x (by simp)]
      exact ih _ (fun i hi => hx i (by simp [hi]))
  exact this _ 0 (fun i hi => hfg i (by simpa using List.mem_range.mp hi))

theorem leFold_succ (n : Nat) (f : Nat → Nat) :
    leFold ⟨n + 1, f⟩ = leFold ⟨n, f⟩ ||| ((f n <<< (n * 8 % 64)) % USIZE) := by
  show (List.range (n + 1)).foldl
        (fun result index => result ||| ((f index <<< (index * 8 % 64)) % USIZE)) 0
      = (List.range n).foldl
          (fun result index => result ||| ((f index <<< (index * 8 % 64)) % USIZE)) 0
        ||| ((f n <<< (n * 8 % 64)) % USIZE)
  rw [List.range_succ, List.foldl_append, List.foldl_cons, List.foldl_nil]

/-- Below the word width the masked shift and the `usize` wrap of a shifted
byte are identities. -/
theorem leFold_term_small {i v : Nat} (hi : i ≤ 7) (hv : v < 256) :
    (v <<< (i * 8 % 64)) % USIZE = v <<< (i * 8) := by
  rw [Nat.mod_eq_of_lt (show i * 8 < 64 by omega)]
  rw [Nat.mod_eq_of_lt]
  rw [Nat.shiftLeft_eq, USIZE_eq]
  have h1 : (2 : Nat) ^ (i * 8) ≤ 2 ^ 56 := Nat.pow_le_pow_right (by omega) (by omega)
  have h2 : v * 2 ^ (i * 8) ≤ 255 * 2 ^ 56 := Nat.mul_le_mul (by omega) h1
  have h3 : (255 : Nat) * 2 ^ 56 < 18446744073709551616 := by norm_num
  omega

theorem leFold_mk_lt {n : Nat} {f : Nat → Nat} (hn : n ≤ 8) (hf : ∀ i, i < n → f i < 256) :
    leFold ⟨n, f⟩ < 2 ^ (8 * n) := by
  induction n with
  | zero => exact Nat.zero_lt_one
  | succ n ih =>
    rw [leFold_succ, leFold_term_small (by omega) (hf n (by omega))]
    have hA : leFold ⟨n, f⟩ < 2 ^ (8 * n) := ih (by omega) (fun i hi => hf i (by omega))
    have hterm : f n <<< (n * 8) < 2 ^ (8 * (n + 1)) := by
      rw [Nat.shiftLeft_eq]
      have h2 : f n * 2 ^ (n * 8) < 256 * 2 ^ (n * 8) :=
        (mul_lt_mul_right (by positivity)).mpr (hf n (by omega))
      have h4 : (256 : Nat) * 2 ^ (n * 8) = 2 ^ (8 * (n + 1)) := by
        rw [show (256 : Nat) = 2 ^ 8 from by norm_num, ← pow_add]
        congr 1
        omega
      omega
    exact Nat.or_lt_two_pow
      (lt_of_lt_of_le hA (Nat.pow_le_pow_right (by omega) (by omega))) hterm

theorem leFold_mk_eq_sum {n : Nat} {f : Nat → Nat} (hn : n ≤ 8)
    (hf : ∀ i, i < n → f i < 256) :
    leFold ⟨n, f⟩ = ((List.range n).map (fun i => f i * 2 ^ (8 * i))).sum := by
  induction n with
  | zero => rfl
  | succ n ih =>
    rw [leFold_succ, leFold_term_small (by omega) (hf n (by omega)),
      List.range_succ, List.map_append, List.sum_append]
    have hA : leFold ⟨n, f⟩ < 2 ^ (n * 8) := by
      have := leFold_mk_lt (n := n) (f := f) (by omega) (fun i hi => hf i (by omega))
      rwa [mul_comm 8 n] at this
    rw [Nat.shiftLeft_eq, Nat.or_comm, mul_comm (f n) (2 ^ (n * 8)),
      ← Nat.mul_add_lt_is_or hA (f n), ih (by omega) (fun i hi => hf i (by omega))]
    have he2 : (2 : Nat) ^ (n * 8) = 2 ^ (8 * n) := by rw [mul_comm]
    simp only [List.map_cons, List.map_nil, List.sum_cons, List.sum_nil, he2]
    ring

theorem get_block_eq {b : ByteBuf} {offset length : Nat} (h : offset + length ≤ b.size) :
    get_block_by_size b offset length =
      some (leFold ⟨length, fun i => b.byteAt (offset + i)⟩) := by
  unfold get_block_by_size
  rw [sliceBuf_some (Nat.le_add_right _ _) h]
  show some (leFold ⟨offset + length - offset, fun i => b.byteAt (offset + i)⟩) = _
  exact congrArg some (leFold_congr (by omega) (fun i _ => rfl))

theorem get_block_none {b : ByteBuf} {offset length : Nat} (h : b.size < offset + length) :
    get_block_by_size b offset length = none := by
  unfold get_block_by_size
  rw [sliceBuf_none (by omega)]
  rfl

theorem get_block_lt {b : ByteBuf} {offset length v : Nat} (hlen : length ≤ 8)
    (hwf : WfBuf b)
    (h : get_block_by_size b offset length = some v) : v < 2 ^ (8 * length) := by
  rcases le_or_lt (offset + length) b.size with hle | hlt
  · rw [get_block_eq hle] at h
    have := Option.some_inj.mp h
    subst this
    exact leFold_mk_lt hlen (fun i hi => hwf (offset + i) (by omega))
  · rw [get_block_none hlt] at h
    exact absurd h (by simp)

theorem get_block_slice {full : ByteBuf} {lo hi : Nat} {r : ByteBuf}
    (hs : sliceBuf full lo hi = some r) {a b : Nat} (hab : a + b ≤ hi - lo) :
    get_block_by_size r a b = get_block_by_size full (lo + a) b := by
  obtain ⟨h1, h2, h3⟩ := sliceBuf_inv hs
  subst h3
  rw [get_block_eq (by simpa using hab), get_block_eq (by omega)]
  congr 1
  exact leFold_congr rfl (fun i _ => by simp [Nat.add_assoc])

theorem wf_slice {full : ByteBuf} {lo hi : Nat} {r : ByteBuf} (hwf : WfBuf full)
    (hs : sliceBuf full lo hi = some r) : WfBuf r := by
  obtain ⟨h1, h2, h3⟩ := sliceBuf_inv hs
  subst h3
  intro i hi
  exact hwf _ (by simp at hi; omega)

theorem usizeSub_of_le {a b : Nat} (hb : b ≤ a) (ha : a < USIZE) : usizeSub a b = a - b := by
  unfold usizeSub
  rw [Nat.mod_eq_of_lt (lt_of_le_of_lt hb ha)]
  have h1 : a + (USIZE - b) = (a - b) + USIZE := by omega
  rw [h1, Nat.add_mod_right, Nat.mod_eq_of_lt (by omega)]

theorem usizeSub_zero_one : usizeSub 0 1 = USIZE - 1 := by
  unfold usizeSub
  rw [Nat.mod_eq_of_lt (show 1 < USIZE by rw [USIZE_eq]; omega),
    Nat.mod_eq_of_lt (show 0 + (USIZE - 1) < USIZE by rw [USIZE_eq]; omega)]
  omega

theorem usizeSub_pred {m : Nat} (h1 : 1 ≤ m) (h2 : m < USIZE) : usizeSub m 1 = m - 1 :=
  usizeSub_of_le h1 h2

/-! Cache behaviour lemmas. -/

theorem cache_calls_full_succ (disk : ByteBuf) (n : Nat) :
    cache_calls CachePolicy.Full disk (n + 1) = (some disk, 1, List.replicate (n + 1) disk) := by
  induction n with
  | zero => rfl
  | succ n ih =>
    rw [cache_calls, ih]
    simp [get_full_cache, load_file, List.replicate_succ']

theorem cache_calls_vec (disk : ByteBuf) (n : Nat) :
    cache_calls CachePolicy.VecIndex disk n = (none, n, List.replicate n disk) := by
  induction n with
  | zero => rfl
  | succ n ih =>
    rw [cache_calls, ih]
    simp [get_full_cache, load_file, List.replicate_succ']

/-! Claim theorems. -/

/-- Nine-byte buffer whose only set byte sits at index 8, where the rust
shift amount `8 * 8 = 64` reaches the `usize` width. -/
def shiftBuf : ByteBuf := ⟨9, fun i => if i = 8 then 1 else 0⟩

/-- C8 counterexample: at `length = 9` the shift for the top byte
overflows `usize` (release builds mask the amount to `64 % 64 = 0`), so
`get_block_by_size` returns `1` — not the little-endian integer `2^64`
that the claim asserts for every in-bounds `length`. -/
theorem get_block_shift_overflow_counterexample :
    WfBuf shiftBuf ∧
    get_block_by_size shiftBuf 0 9 = some 1 ∧
    get_block_by_size shiftBuf 0 9 ≠
      some (((List.range 9).map (fun i => shiftBuf.byteAt (0 + i) * 2 ^ (8 * i))).sum) :=
  ⟨by unfold WfBuf; decide, rfl, by decide⟩

/-- C8 (amended): for every `length ≤ 8` — covering the lengths 2 and 4
the searcher uses, where `usize` shifts cannot overflow — an in-bounds
`get_block_by_size` returns the little-endian unsigned integer
`Σ bytes[offset+i] * 2^(8*i)` of the `length` bytes at `offset` (for larger
lengths the shift amount overflows the word: debug builds panic, release
builds mask it); for `offset + length > bytes.len()` it fails loudly (the
rust slice panics, `none` here) and never silently truncates. -/
theorem get_block_by_size_spec (bytes : ByteBuf) (offset length : Nat)
    (hwf : WfBuf bytes) :
    (length ≤ 8 → offset + length ≤ bytes.size →
      get_block_by_size bytes offset length =
        some (((List.range length).map (fun i => bytes.byteAt (offset + i) * 2 ^ (8 * i))).sum))
    ∧ (bytes.size < offset + length → get_block_by_size bytes offset length = none) := by
  constructor
  · intro hlen h
    rw [get_block_eq h]
    exact congrArg some (leFold_mk_eq_sum hlen (fun i hi => hwf (offset + i) (by omega)))
  · exact get_block_none

/-- Two-byte example buffer for the C8 witness. -/
def wbuf : ByteBuf := ⟨2, fun i => if i = 0 then 7 else 5⟩

/-- Witness for C8 at a concrete buffer: `7 + 5*256 = 1287` in bounds,
`none` out of bounds. -/
theorem get_block_by_size_spec_witness :
    WfBuf wbuf ∧
    (((2 : Nat) ≤ 8 → 0 + 2 ≤ wbuf.size →
        get_block_by_size wbuf 0 2 =
          some (((List.range 2).map (fun i => wbuf.byteAt (0 + i) * 2 ^ (8 * i))).sum))
      ∧ (wbuf.size < 0 + 2 → get_block_by_size wbuf 0 2 = none)) :=
  ⟨by unfold WfBuf; decide, get_block_by_size_spec wbuf 0 2 (by unfold WfBuf; decide)⟩

/-- C4: under the `Full` cache policy, any sequence of `n ≥ 1` accessor
calls performs exactly one `load_file`, every call returns the same
retained buffer (the disk contents), and therefore repeated `search_by_ip`
queries for the same ip over the returned buffers give identical results. -/
theorem full_cache_single_load (disk : ByteBuf) (n : Nat) (h : 1 ≤ n) :
    (cache_calls CachePolicy.Full disk n).2.1 = 1 ∧
    (∀ b ∈ (cache_calls CachePolicy.Full disk n).2.2, b = load_file disk) ∧
    (∀ ip, ∀ b ∈ (cache_calls CachePolicy.Full disk n).2.2,
      search_by_ip b ip = search_by_ip disk ip) := by
  obtain ⟨m, rfl⟩ : ∃ m, n = m + 1 := ⟨n - 1, by omega⟩
  rw [cache_calls_full_succ]
  refine ⟨rfl, ?_, ?_⟩
  · intro b hb
    exact List.eq_of_mem_replicate hb
  · intro ip b hb
    rw [List.eq_of_mem_replicate hb]

/-- Witness for C4: two calls on a concrete disk. -/
theorem full_cache_single_load_witness :
    1 ≤ 2 ∧
    ((cache_calls CachePolicy.Full disk0 2).2.1 = 1 ∧
      (∀ b ∈ (cache_calls CachePolicy.Full disk0 2).2.2, b = load_file disk0) ∧
      (∀ ip, ∀ b ∈ (cache_calls CachePolicy.Full disk0 2).2.2,
        search_by_ip b ip = search_by_ip disk0 ip)) :=
  ⟨by omega, full_cache_single_load disk0 2 (by omega)⟩

/-- C6 counterexample: under `VecIndex` two accessor calls read the file
from disk twice and retain nothing, contradicting "the 512 KiB vector
index region is read once and retained in memory". -/
theorem vec_index_retained_counterexample :
    (cache_calls CachePolicy.VecIndex disk0 2).2.1 = 2 ∧
    (cache_calls CachePolicy.VecIndex disk0 2).1 = none :=
  ⟨rfl, rfl⟩

/-- C6 amended: under the `VecIndex` policy nothing is retained — every
call re-invokes `load_file` on the whole file (`n` calls, `n` loads, cell
stays empty), and the vector index handed to each query is re-sliced from
that fresh full read. -/
theorem vec_index_reloads_every_query (disk : ByteBuf) (n : Nat) :
    (cache_calls CachePolicy.VecIndex disk n).2.1 = n ∧
    (cache_calls CachePolicy.VecIndex disk n).1 = none ∧
    (∀ b ∈ (cache_calls CachePolicy.VecIndex disk n).2.2,
      b = load_file disk ∧
      get_vector_index_cache b = get_vector_index_cache (load_file disk)) := by
  rw [cache_calls_vec]
  refine ⟨rfl, rfl, ?_⟩
  intro b hb
  rw [List.eq_of_mem_replicate hb]
  exact ⟨rfl, rfl⟩

/-- C7 counterexample: with no configured path and no existing candidate,
`searcher_init` crashes (the `.unwrap()` panic) instead of surfacing the
recoverable configuration error to the caller. -/
theorem searcher_init_crash_counterexample :
    searcher_init none none noPath =
      InitOutcome.crashed ("default filepath not find the xdb file, so you must set xdb_filepath") ∧
    ∀ fp pol, searcher_init none none noPath ≠ InitOutcome.configured fp pol := by
  refine ⟨rfl, ?_⟩
  intro fp pol h
  rw [show searcher_init none none noPath =
      InitOutcome.crashed ("default filepath not find the xdb file, so you must set xdb_filepath")
      from rfl] at h
  exact InitOutcome.noConfusion h

/-- C7 amended: when no path is configured and none of the three default
candidates exists, `default_detect_xdb_file` does return the recoverable
error, but `searcher_init` unwraps it and the process crashes. -/
theorem searcher_init_crash (pathExists : String → Bool)
    (h1 : pathExists ("../data/ip2region.xdb") = false)
    (h2 : pathExists ("../../data/ip2region.xdb") = false)
    (h3 : pathExists ("../../../data/ip2region.xdb") = false) :
    default_detect_xdb_file pathExists =
      .error ("default filepath not find the xdb file, so you must set xdb_filepath") ∧
    searcher_init none none pathExists =
      InitOutcome.crashed ("default filepath not find the xdb file, so you must set xdb_filepath") := by
  have e1 : str_repeat ("../") 1 ++ ("data/ip2region.xdb") = "../data/ip2region.xdb" := by decide
  have e2 : str_repeat ("../") 2 ++ ("data/ip2region.xdb") = "../../data/ip2region.xdb" := by decide
  have e3 : str_repeat ("../") 3 ++ ("data/ip2region.xdb") = "../../../data/ip2region.xdb" := by decide
  have hd : default_detect_xdb_file pathExists =
      .error ("default filepath not find the xdb file, so you must set xdb_filepath") := by
    unfold default_detect_xdb_file
    rw [detect_go, e1, h1]
    rw [if_neg (by simp)]
    rw [detect_go, e2, h2]
    rw [if_neg (by simp)]
    rw [detect_go, e3, h3]
    rw [if_neg (by simp)]
    rw [detect_go]
  refine ⟨hd, ?_⟩
  unfold searcher_init
  rw [hd]

/-- Witness for C7's amended theorem at the all-false oracle. -/
theorem searcher_init_crash_witness :
    (noPath ("../data/ip2region.xdb") = false ∧
      noPath ("../../data/ip2region.xdb") = false ∧
      noPath ("../../../data/ip2region.xdb") = false) ∧
    (default_detect_xdb_file noPath =
        .error ("default filepath not find the xdb file, so you must set xdb_filepath") ∧
      searcher_init none none noPath =
        InitOutcome.crashed ("default filepath not find the xdb file, so you must set xdb_filepath")) :=
  ⟨⟨rfl, rfl, rfl⟩, searcher_init_crash noPath rfl rfl rfl⟩

/-- C2 counterexample: on `c1buf` (vector cell with
`start_ptr = end_ptr = 0`, matching record stored at that offset) the code
finds the record, while the claimed algorithm — `right = count - 1` with
`count = (end_ptr - start_ptr) / 14 = 0` — never enters the loop and
reports `NotFound`. -/
theorem right_init_counterexample :
    search_by_ip c1buf 0 = SearchResult.ok [65] ∧
    search_spec_c2 c1buf 0 = SearchResult.notMatched :=
  ⟨rfl, rfl⟩

/-- C3: the underflow guard claimed by the spec is absent.  On `gapBuf`
(a coverage gap: the single record of the cell starts above ip 0) the loop
reaches `mid = 0` with `ip < start_ip`, computes `right = 0 - 1` which
wraps to `2^64 - 1` in `usize`, and the next iteration faults on an
out-of-bounds slice instead of treating the state as "no smaller record". -/
theorem underflow_wrap_fault :
    search_by_ip gapBuf 0 = SearchResult.fault ∧ gapBuf.size < 2 ^ 63 :=
  ⟨rfl, by norm_num [gapBuf]⟩

/-- C5: a decoded `data_ptr`/`data_length` pointing past the buffer end
(600001 > 524544 on `oobBuf`) makes `search_by_ip` fault with the rust
slice panic; the out-of-bounds slice is not converted into a reported
`DataError`. -/
theorem oob_payload_fault :
    oobBuf.size < vDataPtr oobBuf 0 0 + vDataLen oobBuf 0 0 ∧
    search_by_ip oobBuf 0 = SearchResult.fault :=
  ⟨by decide, rfl⟩

/-! Trace lemmas: the instrumented loop computes the same result as the
real one and only ever appends to its accumulator. -/

theorem search_loop_trace_fst (full : ByteBuf) (ip start_ptr : Nat) :
    ∀ fuel left right acc,
      (search_loop_trace full ip start_ptr fuel left right acc).1 =
        search_loop full ip start_ptr fuel left right := by
  intro fuel
  induction fuel with
  | zero => intro l r acc; rfl
  | succ fuel ih =>
    intro l r acc
    simp only [search_loop_trace, search_loop]
    split
    · repeat' first
        | rfl
        | exact ih _ _ _
        | split
    · rfl

theorem search_loop_trace_mono (full : ByteBuf) (ip start_ptr : Nat) :
    ∀ fuel left right acc,
      List.IsPrefix acc (search_loop_trace full ip start_ptr fuel left right acc).2 := by
  intro fuel
  induction fuel with
  | zero => intro l r acc; exact List.prefix_rfl
  | succ fuel ih =>
    intro l r acc
    simp only [search_loop_trace]
    split
    · repeat' first
        | exact List.prefix_append _ _
        | exact List.prefix_rfl
        | exact (List.prefix_append acc _).trans (ih _ _ _)
        | split
    · exact List.prefix_rfl

theorem search_loop_trace_probe (full : ByteBuf) (ip start_ptr fuel left right : Nat)
    (acc : List Nat) (hlr : left ≤ right) :
    List.IsPrefix
      (acc ++ [(start_ptr + (((left + right) % USIZE) >>> 1) * SEGMENT_INDEX_SIZE) % USIZE])
      (search_loop_trace full ip start_ptr (fuel + 1) left right acc).2 := by
  simp only [search_loop_trace, if_pos hlr]
  repeat' first
    | exact List.prefix_rfl
    | exact search_loop_trace_mono full ip start_ptr fuel _ _ _
    | split

theorem search_by_ip_trace_fst (full : ByteBuf) (ip : Nat) :
    (search_by_ip_trace full ip).1 = search_by_ip full ip := by
  unfold search_by_ip_trace search_by_ip
  rcases h : get_start_end_ptr full ip with - | ⟨s, e⟩
  · simp only [h]
  · simp only [h]
    exact search_loop_trace_fst full ip s _ _ _ _

/-- Decoded vector-cell pointers are four-byte values, hence below `2^32`. -/
theorem get_start_end_ptr_lt {full : ByteBuf} {ip s e : Nat} (hwf : WfBuf full)
    (hcell : get_start_end_ptr full ip = some (s, e)) : s < U32 ∧ e < U32 := by
  simp only [get_start_end_ptr] at hcell
  split at hcell
  · exact absurd hcell (by simp)
  · next vc hv =>
    have hwv : WfBuf vc := by
      unfold get_vector_index_cache at hv
      exact wf_slice hwf hv
    split at hcell
    · next s' e' h1 h2 =>
      have hse : s' = s ∧ e' = e := by
        have := Option.some_inj.mp hcell
        exact ⟨congrArg Prod.fst this, congrArg Prod.snd this⟩
      obtain ⟨rfl, rfl⟩ := hse
      constructor
      · have := get_block_lt (by omega) hwv h1
        rw [U32_eq]
        norm_num at this
        omega
      · have := get_block_lt (by omega) hwv h2
        rw [U32_eq]
        norm_num at this
        omega
    · exact absurd hcell (by simp)

/-- C9: for a vector-index cell with `start_ptr = end_ptr` the search does
not return `NotFound` immediately: `right` is initialised to
`(end_ptr - start_ptr) / 14 = 0 = count`, the loop is entered, and the very
first record probed (sliced as 14 bytes) is the one at offset `start_ptr` —
one record position beyond the cell's half-open range. -/
theorem zero_length_cell_probed (full : ByteBuf) (ip p : Nat)
    (hwf : WfBuf full)
    (hcell : get_start_end_ptr full ip = some (p, p)) :
    usizeSub p p / SEGMENT_INDEX_SIZE = 0 ∧
    (search_by_ip_trace full ip).2.head? = some p ∧
    (search_by_ip_trace full ip).1 = search_by_ip full ip := by
  obtain ⟨hp, -⟩ := get_start_end_ptr_lt hwf hcell
  have hpU : p < USIZE := by
    rw [USIZE_eq]
    rw [U32_eq] at hp
    omega
  have hps : usizeSub p p = 0 := by
    rw [usizeSub_of_le le_rfl hpU]
    omega
  refine ⟨by rw [hps]; exact Nat.zero_div _, ?_, search_by_ip_trace_fst full ip⟩
  have hgoal : search_by_ip_trace full ip =
      search_loop_trace full ip p FUEL 0 (usizeSub p p / SEGMENT_INDEX_SIZE) [] := by
    unfold search_by_ip_trace
    rw [hcell]
  rw [hgoal, hps]
  have hFUEL : FUEL = (FUEL - 1) + 1 := by
    rw [FUEL, USIZE_eq]
  rw [hFUEL]
  have hpre := search_loop_trace_probe full ip p (FUEL - 1) 0 (0 / SEGMENT_INDEX_SIZE) []
    (Nat.zero_le _)
  have harith :
      ([] : List Nat) ++ [(p + (((0 + 0 / SEGMENT_INDEX_SIZE) % USIZE) >>> 1) * SEGMENT_INDEX_SIZE) % USIZE]
        = [p] := by
    rw [Nat.zero_div, Nat.add_zero, Nat.zero_mod, Nat.zero_shiftRight, Nat.zero_mul,
      Nat.add_zero, Nat.mod_eq_of_lt hpU]
    rfl
  rw [harith] at hpre
  obtain ⟨t, ht⟩ := hpre
  rw [← ht]
  rfl

/-- `c1buf` is a byte buffer. -/
theorem c1buf_wf : WfBuf c1buf := by
  intro i hi
  dsimp only [c1buf]
  repeat' split
  all_goals omega

/-- `gapBuf` is a byte buffer. -/
theorem gapBuf_wf : WfBuf gapBuf := by
  intro i hi
  dsimp only [gapBuf]
  split
  all_goals omega

/-- Witness for C9 on `c1buf`, whose cell for ip 0 is `(0, 0)`. -/
theorem zero_length_cell_probed_witness :
    (WfBuf c1buf ∧ get_start_end_ptr c1buf 0 = some (0, 0)) ∧
    (usizeSub 0 0 / SEGMENT_INDEX_SIZE = 0 ∧
      (search_by_ip_trace c1buf 0).2.head? = some 0 ∧
      (search_by_ip_trace c1buf 0).1 = search_by_ip c1buf 0) :=
  ⟨⟨c1buf_wf, rfl⟩, zero_length_cell_probed c1buf 0 0 c1buf_wf rfl⟩

/-! Equivalence of the code's loop with the amended C2 description. -/

theorem SEGMENT_INDEX_SIZE_eq : SEGMENT_INDEX_SIZE = 14 := rfl

theorem search_loop_eq_amended (full : ByteBuf) (ip start_ptr : Nat) :
    ∀ fuel left right,
      search_loop full ip start_ptr fuel left right =
        search_amended_c2_loop full ip start_ptr fuel left right := by
  intro fuel
  induction fuel with
  | zero => intro l r; rfl
  | succ fuel ih =>
    intro l r
    by_cases hlr : l ≤ r
    · simp only [search_loop, search_amended_c2_loop, if_pos hlr]
      set mid := ((l + r) % USIZE) >>> 1 with hmid
      set offset := (start_ptr + mid * SEGMENT_INDEX_SIZE) % USIZE with hoff
      set hi := (offset + SEGMENT_INDEX_SIZE) % USIZE with hhi
      by_cases hcond : offset ≤ hi ∧ hi ≤ full.size
      · rw [if_pos hcond]
        have hoflt : offset < USIZE := by
          rw [hoff]
          exact Nat.mod_lt _ USIZE_pos
        have hhieq : hi = offset + SEGMENT_INDEX_SIZE := by
          rw [hhi]
          rcases Nat.lt_or_ge (offset + SEGMENT_INDEX_SIZE) USIZE with h | h
          · exact Nat.mod_eq_of_lt h
          · exfalso
            have h2 : (offset + SEGMENT_INDEX_SIZE) % USIZE
                = offset + SEGMENT_INDEX_SIZE - USIZE := by
              rw [Nat.mod_eq_sub_mod h, Nat.mod_eq_of_lt]
              rw [SEGMENT_INDEX_SIZE_eq] at *
              rw [USIZE_eq] at *
              omega
            have h3 := hcond.1
            rw [hhi, h2] at h3
            rw [SEGMENT_INDEX_SIZE_eq] at *
            rw [USIZE_eq] at *
            omega
        have hrange : SEGMENT_INDEX_SIZE ≤ hi - offset := by
          rw [hhieq]
          omega
        have hslice : sliceBuf full offset hi
            = some ⟨hi - offset, fun i => full.byteAt (offset + i)⟩ :=
          sliceBuf_some hcond.1 hcond.2
        simp only [hslice]
        have hd0 := get_block_slice hslice (a := 0) (b := 4)
          (by rw [SEGMENT_INDEX_SIZE_eq] at hrange; omega)
        rw [Nat.add_zero] at hd0
        have hd4 := get_block_slice hslice (a := 4) (b := 4)
          (by rw [SEGMENT_INDEX_SIZE_eq] at hrange; omega)
        have hd8 := get_block_slice hslice (a := 8) (b := 2)
          (by rw [SEGMENT_INDEX_SIZE_eq] at hrange; omega)
        have hd10 := get_block_slice hslice (a := 10) (b := 4)
          (by rw [SEGMENT_INDEX_SIZE_eq] at hrange; omega)
        rw [hd0]
        cases hstart : get_block_by_size full offset 4 with
        | none => rfl
        | some start_ip =>
          by_cases hlt : ip < start_ip % U32
          · simp only [if_pos hlt]
            exact ih _ _
          · simp only [if_neg hlt]
            rw [hd4]
            cases hend : get_block_by_size full (offset + 4) 4 with
            | none => rfl
            | some end_ip =>
              by_cases hgt : ip > end_ip % U32
              · simp only [if_pos hgt]
                exact ih _ _
              · simp only [if_neg hgt]
                rw [hd8, hd10]
      · rw [if_neg hcond]
        rw [sliceBuf_none hcond]
    · simp only [search_loop, search_amended_c2_loop, if_neg hlr]

/-- C2 (amended): `search_by_ip` is exactly the amended algorithm — vector
cell lookup, then closed-interval binary search with `left = 0` and `right`
initialised to `count = (end_ptr - start_ptr) / 14` (records `0..count`
inclusive, `end_ptr` addressing the last record), moving
`right = mid - 1` (`usize` wrap at `mid = 0`) when `ip < start_ip`,
`left = mid + 1` when `ip > end_ip`, stopping on that record otherwise, and
`NotFound` when the loop exits with `left > right`. -/
theorem search_by_ip_eq_amended (full : ByteBuf) (ip : Nat) :
    search_by_ip full ip = search_amended_c2 full ip := by
  unfold search_by_ip search_amended_c2
  rcases h : get_start_end_ptr full ip with - | ⟨s, e⟩
  · simp only [h]
  · simp only [h]
    exact search_loop_eq_amended full ip s FUEL 0 _

/-! Record-field decoding lemmas for the segment records. -/

theorem vStart_decode {full : ByteBuf} {s k : Nat}
    (h : s + k * SEGMENT_INDEX_SIZE + 4 ≤ full.size) :
    get_block_by_size full (s + k * SEGMENT_INDEX_SIZE) 4 = some (vStart full s k) := by
  unfold vStart
  rw [get_block_eq h]
  rfl

theorem vEnd_decode {full : ByteBuf} {s k : Nat}
    (h : s + k * SEGMENT_INDEX_SIZE + 4 + 4 ≤ full.size) :
    get_block_by_size full (s + k * SEGMENT_INDEX_SIZE + 4) 4 = some (vEnd full s k) := by
  unfold vEnd
  rw [get_block_eq (by omega)]
  rfl

theorem vDataLen_decode {full : ByteBuf} {s k : Nat}
    (h : s + k * SEGMENT_INDEX_SIZE + 8 + 2 ≤ full.size) :
    get_block_by_size full (s + k * SEGMENT_INDEX_SIZE + 8) 2 = some (vDataLen full s k) := by
  unfold vDataLen
  rw [get_block_eq (by omega)]
  rfl

theorem vDataPtr_decode {full : ByteBuf} {s k : Nat}
    (h : s + k * SEGMENT_INDEX_SIZE + 10 + 4 ≤ full.size) :
    get_block_by_size full (s + k * SEGMENT_INDEX_SIZE + 10) 4 = some (vDataPtr full s k) := by
  unfold vDataPtr
  rw [get_block_eq (by omega)]
  rfl

theorem vStart_lt {full : ByteBuf} {s k : Nat} (hwf : WfBuf full)
    (h : s + k * SEGMENT_INDEX_SIZE + 4 ≤ full.size) : vStart full s k < U32 := by
  have := get_block_lt (by omega) hwf (vStart_decode h)
  rw [U32_eq]
  norm_num at this
  omega

theorem vEnd_lt {full : ByteBuf} {s k : Nat} (hwf : WfBuf full)
    (h : s + k * SEGMENT_INDEX_SIZE + 4 + 4 ≤ full.size) : vEnd full s k < U32 := by
  have := get_block_lt (by omega) hwf (vEnd_decode h)
  rw [U32_eq]
  norm_num at this
  omega

theorem vDataLen_lt {full : ByteBuf} {s k : Nat} (hwf : WfBuf full)
    (h : s + k * SEGMENT_INDEX_SIZE + 8 + 2 ≤ full.size) : vDataLen full s k < 2 ^ 16 := by
  have := get_block_lt (by omega) hwf (vDataLen_decode h)
  norm_num at this
  norm_num
  omega

theorem vDataPtr_lt {full : ByteBuf} {s k : Nat} (hwf : WfBuf full)
    (h : s + k * SEGMENT_INDEX_SIZE + 10 + 4 ≤ full.size) : vDataPtr full s k < U32 := by
  have := get_block_lt (by omega) hwf (vDataPtr_decode h)
  rw [U32_eq]
  norm_num at this
  omega

theorem bufToList_slice (full : ByteBuf) (dp dl : Nat) :
    bufToList ⟨dp + dl - dp, fun i => full.byteAt (dp + i)⟩ = payloadBytes full dp dl := by
  show (List.range (dp + dl - dp)).map (fun i => full.byteAt (dp + i)) = _
  rw [Nat.add_sub_cancel_left]
  rfl

/-! Sortedness chains over the records of one cell. -/

theorem vStart_mono {full : ByteBuf} {s N : Nat}
    (hrec : ∀ k, k ≤ N → vStart full s k ≤ vEnd full s k)
    (hsort : ∀ k, k < N → vEnd full s k < vStart full s (k + 1)) :
    ∀ k d, k + d ≤ N → vStart full s k ≤ vStart full s (k + d) := by
  intro k d
  induction d with
  | zero => intro h; exact le_rfl
  | succ d ih =>
    intro h
    have h1 : vStart full s k ≤ vStart full s (k + d) := ih (by omega)
    have h2 : vStart full s (k + d) ≤ vEnd full s (k + d) := hrec _ (by omega)
    have h3 : vEnd full s (k + d) < vStart full s (k + d + 1) := hsort _ (by omega)
    rw [← Nat.add_assoc]
    omega

theorem vEnd_mono {full : ByteBuf} {s N : Nat}
    (hrec : ∀ k, k ≤ N → vStart full s k ≤ vEnd full s k)
    (hsort : ∀ k, k < N → vEnd full s k < vStart full s (k + 1)) :
    ∀ k d, k + d ≤ N → vEnd full s k ≤ vEnd full s (k + d) := by
  intro k d
  induction d with
  | zero => intro h; exact le_rfl
  | succ d ih =>
    intro h
    have h1 : vEnd full s k ≤ vEnd full s (k + d) := ih (by omega)
    have h2 : vEnd full s (k + d) < vStart full s (k + d + 1) := hsort _ (by omega)
    have h3 : vStart full s (k + d + 1) ≤ vEnd full s (k + d + 1) := hrec _ (by omega)
    rw [← Nat.add_assoc]
    omega

/-- Invariant proof of the binary-search loop: if the records of the cell
based at `s` with top index `N` are internally consistent and sorted, and
record `j` covers `ip` with an in-bounds valid-UTF-8 payload, then from any
window `[left, right]` containing `j` the loop returns record `j`'s
payload. -/
theorem search_loop_finds (full : ByteBuf) (ip s N j : Nat)
    (hwf : WfBuf full)
    (hbound : s + N * SEGMENT_INDEX_SIZE + SEGMENT_INDEX_SIZE ≤ full.size)
    (hsN : s + N * SEGMENT_INDEX_SIZE < U32)
    (hrec : ∀ k, k ≤ N → vStart full s k ≤ vEnd full s k)
    (hsort : ∀ k, k < N → vEnd full s k < vStart full s (k + 1))
    (hj : j ≤ N)
    (hcov1 : vStart full s j ≤ ip) (hcov2 : ip ≤ vEnd full s j)
    (hdata : vDataPtr full s j + vDataLen full s j ≤ full.size)
    (hutf : isValidUtf8 (payloadBytes full (vDataPtr full s j) (vDataLen full s j)) = true) :
    ∀ fuel left right, left ≤ j → j ≤ right → right ≤ N → right + 1 - left ≤ fuel →
      search_loop full ip s fuel left right =
        SearchResult.ok (payloadBytes full (vDataPtr full s j) (vDataLen full s j)) := by
  have hsN' : s + N * 14 < 4294967296 := by
    rw [SEGMENT_INDEX_SIZE_eq] at hsN
    rw [U32_eq] at hsN
    exact hsN
  have hbound' : s + N * 14 + 14 ≤ full.size := by
    rw [SEGMENT_INDEX_SIZE_eq] at hbound
    exact hbound
  intro fuel
  induction fuel with
  | zero =>
    intro l r h1 h2 h3 h4
    exact absurd h4 (by omega)
  | succ fuel ih =>
    intro l r hlj hjr hrN hfuel
    have hlr : l ≤ r := le_trans hlj hjr
    have hN32 : N < 4294967296 := by omega
    simp only [search_loop, if_pos hlr]
    have hmod1 : (l + r) % USIZE = l + r := by
      rw [USIZE_eq]; omega
    rw [hmod1, Nat.shiftRight_one]
    set m := (l + r) / 2 with hm
    have hml : l ≤ m := by omega
    have hmr : m ≤ r := by omega
    have hmN : m ≤ N := by omega
    have hoffmod : (s + m * SEGMENT_INDEX_SIZE) % USIZE = s + m * SEGMENT_INDEX_SIZE := by
      rw [SEGMENT_INDEX_SIZE_eq, USIZE_eq]; omega
    rw [hoffmod]
    have hoffb : s + m * SEGMENT_INDEX_SIZE + SEGMENT_INDEX_SIZE ≤ full.size := by
      rw [SEGMENT_INDEX_SIZE_eq]; omega
    have hhimod : (s + m * SEGMENT_INDEX_SIZE + SEGMENT_INDEX_SIZE) % USIZE
        = s + m * SEGMENT_INDEX_SIZE + SEGMENT_INDEX_SIZE := by
      rw [SEGMENT_INDEX_SIZE_eq, USIZE_eq]; omega
    rw [hhimod]
    have hsl : sliceBuf full (s + m * SEGMENT_INDEX_SIZE)
        (s + m * SEGMENT_INDEX_SIZE + SEGMENT_INDEX_SIZE)
        = some ⟨s + m * SEGMENT_INDEX_SIZE + SEGMENT_INDEX_SIZE - (s + m * SEGMENT_INDEX_SIZE),
                fun i => full.byteAt (s + m * SEGMENT_INDEX_SIZE + i)⟩ :=
      sliceBuf_some (Nat.le_add_right _ _) hoffb
    simp only [hsl]
    rw [get_block_slice hsl (show 0 + 4 ≤ s + m * SEGMENT_INDEX_SIZE + SEGMENT_INDEX_SIZE
      - (s + m * SEGMENT_INDEX_SIZE) by rw [SEGMENT_INDEX_SIZE_eq]; omega), Nat.add_zero]
    simp only [vStart_decode (show s + m * SEGMENT_INDEX_SIZE + 4 ≤ full.size by
      rw [SEGMENT_INDEX_SIZE_eq]; omega)]
    have hvs32 : vStart full s m % U32 = vStart full s m :=
      Nat.mod_eq_of_lt (vStart_lt hwf (by rw [SEGMENT_INDEX_SIZE_eq]; omega))
    rw [hvs32]
    by_cases hlt : ip < vStart full s m
    · rw [if_pos hlt]
      have hjm : j < m := by
        by_contra hc
        push_neg at hc
        have hmono := vStart_mono hrec hsort m (j - m) (by omega)
        rw [show m + (j - m) = j by omega] at hmono
        omega
      rw [usizeSub_pred (by omega) (by rw [USIZE_eq]; omega)]
      exact ih l (m - 1) hlj (by omega) (by omega) (by omega)
    · rw [if_neg hlt]
      rw [get_block_slice hsl (show 4 + 4 ≤ s + m * SEGMENT_INDEX_SIZE + SEGMENT_INDEX_SIZE
        - (s + m * SEGMENT_INDEX_SIZE) by rw [SEGMENT_INDEX_SIZE_eq]; omega)]
      simp only [vEnd_decode (show s + m * SEGMENT_INDEX_SIZE + 4 + 4 ≤ full.size by
        rw [SEGMENT_INDEX_SIZE_eq]; omega)]
      have hve32 : vEnd full s m % U32 = vEnd full s m :=
        Nat.mod_eq_of_lt (vEnd_lt hwf (by rw [SEGMENT_INDEX_SIZE_eq]; omega))
      rw [hve32]
      by_cases hgt : ip > vEnd full s m
      · rw [if_pos hgt]
        have hmj : m < j := by
          by_contra hc
          push_neg at hc
          have hmono := vEnd_mono hrec hsort j (m - j) (by omega)
          rw [show j + (m - j) = m by omega] at hmono
          omega
        have hmod2 : (m + 1) % USIZE = m + 1 := by rw [USIZE_eq]; omega
        rw [hmod2]
        exact ih (m + 1) r (by omega) hjr hrN (by omega)
      · rw [if_neg hgt]
        have hmj : m = j := by
          rcases lt_trichotomy m j with h | h | h
          · exfalso
            have h1 : vEnd full s m < vStart full s (m + 1) := hsort m (by omega)
            have h2 := vStart_mono hrec hsort (m + 1) (j - (m + 1)) (by omega)
            rw [show m + 1 + (j - (m + 1)) = j by omega] at h2
            omega
          · exact h
          · exfalso
            have h1 : vEnd full s j < vStart full s (j + 1) := hsort j (by omega)
            have h2 := vStart_mono hrec hsort (j + 1) (m - (j + 1)) (by omega)
            rw [show j + 1 + (m - (j + 1)) = m by omega] at h2
            omega
        rw [hmj] at hsl ⊢
        rw [get_block_slice hsl (show 8 + 2 ≤ s + j * SEGMENT_INDEX_SIZE + SEGMENT_INDEX_SIZE
          - (s + j * SEGMENT_INDEX_SIZE) by rw [SEGMENT_INDEX_SIZE_eq]; omega)]
        rw [get_block_slice hsl (show 10 + 4 ≤ s + j * SEGMENT_INDEX_SIZE + SEGMENT_INDEX_SIZE
          - (s + j * SEGMENT_INDEX_SIZE) by rw [SEGMENT_INDEX_SIZE_eq]; omega)]
        simp only [vDataLen_decode (show s + j * SEGMENT_INDEX_SIZE + 8 + 2 ≤ full.size by
            rw [SEGMENT_INDEX_SIZE_eq]; omega),
          vDataPtr_decode (show s + j * SEGMENT_INDEX_SIZE + 10 + 4 ≤ full.size by
            rw [SEGMENT_INDEX_SIZE_eq]; omega)]
        have hdl16 : vDataLen full s j < 2 ^ 16 :=
          vDataLen_lt hwf (by rw [SEGMENT_INDEX_SIZE_eq]; omega)
        have hdp32 : vDataPtr full s j < U32 :=
          vDataPtr_lt hwf (by rw [SEGMENT_INDEX_SIZE_eq]; omega)
        have hmod3 : (vDataPtr full s j + vDataLen full s j) % USIZE
            = vDataPtr full s j + vDataLen full s j := by
          rw [USIZE_eq]
          rw [U32_eq] at hdp32
          norm_num at hdl16
          omega
        rw [hmod3]
        simp only [sliceBuf_some (Nat.le_add_right _ _) hdata]
        rw [bufToList_slice]
        rw [if_pos hutf]

/-- C1: whenever the vector-index cell selected by `ip` addresses records
`0 .. N` (with `end_ptr` pointing at the last record), those records are
sorted and non-overlapping, and record `j` of that range satisfies
`start_ip ≤ ip ≤ end_ip` (inclusive containment — both endpoints allowed)
with an in-bounds, valid-UTF-8 payload `p`, `search_by_ip` returns
`Ok(p)`. -/
theorem search_by_ip_finds (full : ByteBuf) (ip s e N j : Nat)
    (hwf : WfBuf full)
    (hcell : get_start_end_ptr full ip = some (s, e))
    (heN : e = s + N * SEGMENT_INDEX_SIZE)
    (hbound : e + SEGMENT_INDEX_SIZE ≤ full.size)
    (hrec : ∀ k, k ≤ N → vStart full s k ≤ vEnd full s k)
    (hsort : ∀ k, k < N → vEnd full s k < vStart full s (k + 1))
    (hj : j ≤ N)
    (hcov1 : vStart full s j ≤ ip) (hcov2 : ip ≤ vEnd full s j)
    (hdata : vDataPtr full s j + vDataLen full s j ≤ full.size)
    (hutf : isValidUtf8 (payloadBytes full (vDataPtr full s j) (vDataLen full s j)) = true) :
    search_by_ip full ip =
      SearchResult.ok (payloadBytes full (vDataPtr full s j) (vDataLen full s j)) := by
  obtain ⟨hs32, he32⟩ := get_start_end_ptr_lt hwf hcell
  unfold search_by_ip
  simp only [hcell]
  have hse : s ≤ e := by
    rw [heN]
    exact Nat.le_add_right _ _
  have hsub : usizeSub e s = N * SEGMENT_INDEX_SIZE := by
    rw [usizeSub_of_le hse (by rw [USIZE_eq]; rw [U32_eq] at he32; omega)]
    omega
  have hdiv : usizeSub e s / SEGMENT_INDEX_SIZE = N := by
    rw [hsub, SEGMENT_INDEX_SIZE_eq]
    omega
  rw [hdiv]
  have hNe : N ≤ e := by
    rw [heN, SEGMENT_INDEX_SIZE_eq]
    omega
  exact search_loop_finds full ip s N j hwf (by rw [← heN]; exact hbound)
    (by rw [← heN]; exact he32) hrec hsort hj hcov1 hcov2 hdata hutf FUEL 0 N
    (Nat.zero_le _) hj le_rfl
    (by rw [FUEL, USIZE_eq]; rw [U32_eq] at he32; omega)

/-- Witness for C1 on `c1buf`: record 0 is `[0, 0xFFFFFFFF]` and ip 0 (an
endpoint of the range) resolves to its payload. -/
theorem search_by_ip_finds_witness :
    (WfBuf c1buf ∧ get_start_end_ptr c1buf 0 = some (0, 0) ∧
      (0 : Nat) = 0 + 0 * SEGMENT_INDEX_SIZE ∧ 0 + SEGMENT_INDEX_SIZE ≤ c1buf.size ∧
      (∀ k, k ≤ 0 → vStart c1buf 0 k ≤ vEnd c1buf 0 k) ∧
      (∀ k, k < 0 → vEnd c1buf 0 k < vStart c1buf 0 (k + 1)) ∧
      vStart c1buf 0 0 ≤ 0 ∧ (0 : Nat) ≤ vEnd c1buf 0 0 ∧
      vDataPtr c1buf 0 0 + vDataLen c1buf 0 0 ≤ c1buf.size ∧
      isValidUtf8 (payloadBytes c1buf (vDataPtr c1buf 0 0) (vDataLen c1buf 0 0)) = true) ∧
    search_by_ip c1buf 0 =
      SearchResult.ok (payloadBytes c1buf (vDataPtr c1buf 0 0) (vDataLen c1buf 0 0)) :=
  ⟨⟨c1buf_wf, rfl, rfl, by decide, by decide, by decide, by decide, by decide, by decide,
      by decide⟩,
    search_by_ip_finds c1buf 0 0 0 0 0 c1buf_wf rfl rfl (by decide) (by decide) (by decide)
      (Nat.le_refl 0) (by decide) (by decide) (by decide) (by decide)⟩

/-! Termination of the loop (claim C10): the only way an iteration does not
settle the result is a recursive call, and fuel `2^64` outlasts every chain
of such calls when the buffer respects rust's allocation cap
(`Vec` length at most `isize::MAX < 2^63`). -/

theorem search_loop_fuelOut_inv {full : ByteBuf} {ip start_ptr fuel left right : Nat}
    (h : search_loop full ip start_ptr (fuel + 1) left right = SearchResult.fuelOut) :
    left ≤ right ∧
    (search_loop full ip start_ptr fuel left (usizeSub (((left + right) % USIZE) >>> 1) 1)
        = SearchResult.fuelOut ∨
      search_loop full ip start_ptr fuel ((((left + right) % USIZE) >>> 1 + 1) % USIZE) right
        = SearchResult.fuelOut) := by
  by_cases hlr : left ≤ right
  · simp only [search_loop, if_pos hlr] at h
    refine ⟨hlr, ?_⟩
    split at h
    · exact absurd h (fun hh => SearchResult.noConfusion hh)
    · split at h
      · exact absurd h (fun hh => SearchResult.noConfusion hh)
      · split at h
        · exact Or.inl h
        · split at h
          · exact absurd h (fun hh => SearchResult.noConfusion hh)
          · split at h
            · exact Or.inr h
            · split at h
              · split at h
                · exact absurd h (fun hh => SearchResult.noConfusion hh)
                · split at h <;> exact absurd h (fun hh => SearchResult.noConfusion hh)
              · exact absurd h (fun hh => SearchResult.noConfusion hh)
  · simp only [search_loop, if_neg hlr] at h
    exact absurd h (fun hh => SearchResult.noConfusion hh)


theorem search_loop_slice_fail {full : ByteBuf} {ip s fuel l r : Nat} (hlr : l ≤ r)
    (hfail : sliceBuf full ((s + (((l + r) % USIZE) >>> 1) * SEGMENT_INDEX_SIZE) % USIZE)
        (((s + (((l + r) % USIZE) >>> 1) * SEGMENT_INDEX_SIZE) % USIZE + SEGMENT_INDEX_SIZE) % USIZE)
      = none) :
    search_loop full ip s (fuel + 1) l r = SearchResult.fault := by
  simp only [search_loop, if_pos hlr, hfail]

/-- After the `usize` wrap of `right` (`mid = 0`, `right = 0 - 1`), the
loop faults within two iterations: the record offsets it computes for
`mid ≈ 2^62` land at or beyond `start_ptr + 2^63 - 14`, outside every
buffer smaller than `2^63` bytes, so the slice panics. -/
theorem search_loop_wrap_ne (full : ByteBuf) (ip s f : Nat)
    (hs : s < U32) (hsize : full.size < 2 ^ 63) (hf : 2 ≤ f) :
    search_loop full ip s f 0 (USIZE - 1) ≠ SearchResult.fuelOut := by
  rw [U32_eq] at hs
  rw [show (2 : Nat) ^ 63 = 9223372036854775808 from by norm_num] at hsize
  intro h
  obtain ⟨f1, rfl⟩ : ∃ f1, f = f1 + 1 := ⟨f - 1, by omega⟩
  obtain ⟨hlr, hrec⟩ := search_loop_fuelOut_inv h
  have e1 : ((0 + (USIZE - 1)) % USIZE) >>> 1 = 9223372036854775807 := by
    rw [Nat.zero_add, USIZE_eq, Nat.shiftRight_one]
  have e2 : usizeSub 9223372036854775807 1 = 9223372036854775806 := by
    rw [usizeSub_pred (by omega) (by rw [USIZE_eq]; omega)]
  have e3 : (9223372036854775807 + 1) % USIZE = 9223372036854775808 := by
    rw [USIZE_eq]
  rw [e1, e2, e3] at hrec
  obtain ⟨f2, rfl⟩ : ∃ f2, f1 = f2 + 1 := ⟨f1 - 1, by omega⟩
  rcases hrec with hA | hB
  · have hstep := @search_loop_slice_fail full ip s f2 0 9223372036854775806
      (by omega) ?hfail
    case hfail =>
      have m2 : (((0 : Nat) + 9223372036854775806) % USIZE) >>> 1 = 4611686018427387903 := by
        rw [Nat.zero_add, USIZE_eq, Nat.shiftRight_one]
      rw [m2]
      have o2 : (s + 4611686018427387903 * SEGMENT_INDEX_SIZE) % USIZE
          = s + 9223372036854775794 := by
        rw [SEGMENT_INDEX_SIZE_eq, USIZE_eq]
        omega
      rw [o2]
      have h2 : (s + 9223372036854775794 + SEGMENT_INDEX_SIZE) % USIZE
          = s + 9223372036854775808 := by
        rw [SEGMENT_INDEX_SIZE_eq, USIZE_eq]
        omega
      rw [h2]
      exact sliceBuf_none (by rintro ⟨-, hc⟩; omega)
    rw [hstep] at hA
    exact SearchResult.noConfusion hA
  · have hstep := @search_loop_slice_fail full ip s f2 9223372036854775808 (USIZE - 1)
      (by rw [USIZE_eq]; omega) ?hfail
    case hfail =>
      have m3 : ((9223372036854775808 + (USIZE - 1)) % USIZE) >>> 1 = 4611686018427387903 := by
        rw [USIZE_eq, Nat.shiftRight_one]
      rw [m3]
      have o3 : (s + 4611686018427387903 * SEGMENT_INDEX_SIZE) % USIZE
          = s + 9223372036854775794 := by
        rw [SEGMENT_INDEX_SIZE_eq, USIZE_eq]
        omega
      rw [o3]
      have h3 : (s + 9223372036854775794 + SEGMENT_INDEX_SIZE) % USIZE
          = s + 9223372036854775808 := by
        rw [SEGMENT_INDEX_SIZE_eq, USIZE_eq]
        omega
      rw [h3]
      exact sliceBuf_none (by rintro ⟨-, hc⟩; omega)
    rw [hstep] at hB
    exact SearchResult.noConfusion hB

theorem usizeSub_lt (a b : Nat) : usizeSub a b < USIZE := Nat.mod_lt _ USIZE_pos

theorem search_loop_ne_fuelOut (full : ByteBuf) (ip s : Nat)
    (hs : s < U32) (hsize : full.size < 2 ^ 63) :
    ∀ fuel left right, left ≤ 4611686018427387904 → right < 4611686018427387904 →
      right + 1 - left + 3 ≤ fuel →
      search_loop full ip s fuel left right ≠ SearchResult.fuelOut := by
  intro fuel
  induction fuel with
  | zero =>
    intro l r h1 h2 h3
    exact absurd h3 (by omega)
  | succ fuel ih =>
    intro l r hl hr hfuel h
    obtain ⟨hlr, hrec⟩ := search_loop_fuelOut_inv h
    have hsum : (l + r) % USIZE = l + r := by
      rw [USIZE_eq]
      omega
    rw [hsum, Nat.shiftRight_one] at hrec
    set m := (l + r) / 2 with hm
    have hml : l ≤ m := by omega
    have hmr : m ≤ r := by omega
    rcases hrec with hA | hB
    · by_cases hm0 : m = 0
      · have hl0 : l = 0 := by omega
        rw [hm0, usizeSub_zero_one, hl0] at hA
        exact search_loop_wrap_ne full ip s fuel hs hsize (by omega) hA
      · rw [usizeSub_pred (by omega) (by rw [USIZE_eq]; omega)] at hA
        exact ih l (m - 1) (by omega) (by omega) (by omega) hA
    · rw [show (m + 1) % USIZE = m + 1 from by rw [USIZE_eq]; omega] at hB
      exact ih (m + 1) r (by omega) (by omega) (by omega) hB

/-- C10: for every ip and every byte buffer within rust's `Vec` size cap,
`search_by_ip` never exhausts the `2^64` fuel of the embedding: every
iteration strictly shrinks `[left, right]`, returns, or errors (a wrapped
`right` faults within two further iterations), so the loop cannot run
forever. -/
theorem search_terminates (full : ByteBuf) (ip : Nat)
    (hwf : WfBuf full) (hsize : full.size < 2 ^ 63) :
    search_by_ip full ip ≠ SearchResult.fuelOut := by
  unfold search_by_ip
  rcases hcell : get_start_end_ptr full ip with - | ⟨s, e⟩
  · simp only [hcell]
    exact fun hh => SearchResult.noConfusion hh
  · simp only [hcell]
    obtain ⟨hs32, he32⟩ := get_start_end_ptr_lt hwf hcell
    have hr0 : usizeSub e s / SEGMENT_INDEX_SIZE < 4611686018427387904 := by
      rw [SEGMENT_INDEX_SIZE_eq]
      have := usizeSub_lt e s
      rw [USIZE_eq] at this
      omega
    exact search_loop_ne_fuelOut full ip s hs32 hsize FUEL 0
      (usizeSub e s / SEGMENT_INDEX_SIZE) (by omega) hr0
      (by rw [FUEL, USIZE_eq]; omega)

/-- Witness for C10 at `gapBuf` (which exercises the wrap path). -/
theorem search_terminates_witness :
    (WfBuf gapBuf ∧ gapBuf.size < 2 ^ 63) ∧
    search_by_ip gapBuf 0 ≠ SearchResult.fuelOut :=
  ⟨⟨gapBuf_wf, by decide⟩, search_terminates gapBuf 0 gapBuf_wf (by decide)⟩
